import Mathlib

/-!
Verification of the chat-server routing Hub (src/internal/hub/hub.go) and the
video-signaling Relay (src/video_service/internal/hub/hub.go).

The Go code is shallowly embedded: Go maps become association lists, the
sequential actor loop becomes pure state-passing functions, and every
SendMessage call on a Client handle is recorded as an event in a delivery
trace.  Message ids produced by uuid.New are modelled by a fresh-id counter
in the state.  Timestamps are not modelled (no claim depends on them).
-/

namespace ChatServer

/-! ### Association lists, modelling Go maps -/

/-- Lookup of a key, modelling reading a Go map entry. -/
def alGet [DecidableEq α] : List (α × β) → α → Option β
  | [], _ => none
  | (k, v) :: rest, k' => if k = k' then some v else alGet rest k'

/-- Update or insert a key, modelling assignment to a Go map entry. -/
def alSet [DecidableEq α] : List (α × β) → α → β → List (α × β)
  | [], k, v => [(k, v)]
  | (k', v') :: rest, k, v =>
      if k' = k then (k, v) :: rest else (k', v') :: alSet rest k v

/-- Removal of a key, modelling a Go map delete. -/
def alErase [DecidableEq α] : List (α × β) → α → List (α × β)
  | [], _ => []
  | (k', v') :: rest, k => if k' = k then rest else (k', v') :: alErase rest k

theorem alGet_alSet_self [DecidableEq α] (l : List (α × β)) (k : α) (v : β) :
    alGet (alSet l k v) k = some v := by
  induction l with
  | nil => simp [alSet, alGet]
  | cons p rest ih =>
      obtain ⟨k', v'⟩ := p
      by_cases h : k' = k <;> simp [alSet, alGet, h, ih]

theorem alGet_alSet_ne [DecidableEq α] (l : List (α × β)) (k k' : α) (v : β)
    (h : k ≠ k') : alGet (alSet l k v) k' = alGet l k' := by
  induction l with
  | nil => simp [alSet, alGet, h]
  | cons p rest ih =>
      obtain ⟨k₀, v₀⟩ := p
      by_cases h₀ : k₀ = k
      · subst h₀; simp [alSet, alGet, h]
      · simp [alSet, alGet, h₀]
        by_cases h₁ : k₀ = k' <;> simp [h₁, ih]

theorem alSet_eq_of_alGet [DecidableEq α] (l : List (α × β)) (k : α) (v : β)
    (h : alGet l k = some v) : alSet l k v = l := by
  induction l with
  | nil => simp [alGet] at h
  | cons p rest ih =>
      obtain ⟨k₀, v₀⟩ := p
      by_cases h₀ : k₀ = k
      · subst h₀
        simp [alGet] at h
        simp [alSet, h]
      · simp [alGet, h₀] at h
        simp [alSet, h₀, ih h]

theorem alGet_mem [DecidableEq α] {l : List (α × β)} {k : α} {v : β}
    (h : alGet l k = some v) : (k, v) ∈ l := by
  induction l with
  | nil => simp [alGet] at h
  | cons p rest ih =>
      obtain ⟨k₀, v₀⟩ := p
      by_cases h₀ : k₀ = k
      · subst h₀
        simp [alGet] at h
        simp [h]
      · simp [alGet, h₀] at h
        simp [ih h]

theorem alGet_value_mem [DecidableEq α] {l : List (α × β)} {k : α} {v : β}
    (h : alGet l k = some v) : v ∈ l.map (·.2) :=
  List.mem_map.2 ⟨(k, v), alGet_mem h, rfl⟩

/-- With duplicate-free values, lookup is injective: two keys resolving to
the same value are the same key. -/
theorem alGet_inj [DecidableEq α] {l : List (α × β)} {k k' : α} {v : β}
    (hnd : (l.map (·.2)).Nodup)
    (h : alGet l k = some v) (h' : alGet l k' = some v) : k = k' := by
  induction l with
  | nil => simp [alGet] at h
  | cons p rest ih =>
      obtain ⟨k₀, v₀⟩ := p
      simp only [List.map_cons, List.nodup_cons] at hnd
      by_cases e : k₀ = k
      · subst e
        simp [alGet] at h
        by_cases e' : k₀ = k'
        · exact e'
        · exfalso
          simp [alGet, e'] at h'
          exact hnd.1 (h ▸ alGet_value_mem h')
      · simp [alGet, e] at h
        by_cases e' : k₀ = k'
        · exfalso
          subst e'
          simp [alGet] at h'
          exact hnd.1 (h' ▸ alGet_value_mem h)
        · simp [alGet, e'] at h'
          exact ih hnd.2 h h'

theorem alGet_alErase_ne [DecidableEq α] (l : List (α × β)) (k k' : α)
    (h : k ≠ k') : alGet (alErase l k) k' = alGet l k' := by
  induction l with
  | nil => simp [alErase]
  | cons p rest ih =>
      obtain ⟨k₀, v₀⟩ := p
      by_cases h₀ : k₀ = k
      · subst h₀
        simp [alErase, alGet, h]
      · simp only [alErase, if_neg h₀, alGet]
        by_cases h₁ : k₀ = k' <;> simp [h₁, ih]

theorem alErase_keys_sublist [DecidableEq α] (l : List (α × β)) (k : α) :
    ((alErase l k).map (·.1)).Sublist (l.map (·.1)) := by
  induction l with
  | nil => simp [alErase]
  | cons p rest ih =>
      obtain ⟨k₀, v₀⟩ := p
      by_cases h₀ : k₀ = k
      · simp [alErase, h₀]
      · simpa [alErase, h₀] using ih.cons₂ k₀

theorem alGet_alErase_self [DecidableEq α] (l : List (α × β)) (k : α)
    (hnd : (l.map (·.1)).Nodup) : alGet (alErase l k) k = none := by
  induction l with
  | nil => simp [alErase, alGet]
  | cons p rest ih =>
      obtain ⟨k₀, v₀⟩ := p
      simp only [List.map_cons, List.nodup_cons] at hnd
      by_cases h₀ : k₀ = k
      · subst h₀
        simp only [alErase, if_pos rfl]
        cases hv : alGet rest k₀ with
        | none => exact hv
        | some v =>
            exfalso
            exact hnd.1 (List.mem_map.2 ⟨(k₀, v), alGet_mem hv, rfl⟩)
      · simp [alErase, h₀, alGet, ih hnd.2]

theorem alSet_keys_of_mem [DecidableEq α] (l : List (α × β)) (k : α) (v : β)
    (h : alGet l k ≠ none) : (alSet l k v).map (·.1) = l.map (·.1) := by
  induction l with
  | nil => simp [alGet] at h
  | cons p rest ih =>
      obtain ⟨k₀, v₀⟩ := p
      by_cases h₀ : k₀ = k
      · subst h₀; simp [alSet]
      · simp [alGet, h₀] at h
        simp [alSet, h₀, ih h]

theorem alSet_keys_of_none [DecidableEq α] (l : List (α × β)) (k : α) (v : β)
    (h : alGet l k = none) : (alSet l k v).map (·.1) = l.map (·.1) ++ [k] := by
  induction l with
  | nil => simp [alSet]
  | cons p rest ih =>
      obtain ⟨k₀, v₀⟩ := p
      by_cases h₀ : k₀ = k
      · subst h₀; simp [alGet] at h
      · simp [alGet, h₀] at h
        simp [alSet, h₀, ih h]

/-! ### Data model

The Go package chatstreamapp/internal/models is referenced by hub.go but its
source is not under src/.  The records below are therefore modelled from the
spec, while every Hub operation is translated from src/internal/hub/hub.go. -/

/-- Modelled from the spec: message kinds (spec section 3, kind in
{text, join, leave, system, private}), matching the models.MessageType
constants used by hub.go. -/
inductive MessageType where
  | text
  | join
  | leave
  | system
  | priv
  deriving DecidableEq, Repr

/-- Modelled from the spec: a Message record (spec section 3).  The uuid ids
generated by the Hub are modelled as naturals drawn from a fresh counter;
timestamps are not modelled. -/
structure Message where
  id : Nat
  type : MessageType
  content : String
  sender : String
  room : String
  deriving DecidableEq, Repr

/-- Modelled from the spec: a Room record (spec section 3): id, display name,
member set of user ids, and ordered message history.  The Go Users map is
modelled as a duplicate-free list of user ids. -/
structure Room where
  id : String
  name : String
  users : List String
  messages : List Message
  deriving DecidableEq, Repr

/-- Modelled from the spec: Room.AddUser puts the user id into the member
set (Go map assignment, hence insert-if-absent). -/
def Room.addUser (r : Room) (uid : String) : Room :=
  if uid ∈ r.users then r else { r with users := r.users ++ [uid] }

/-- Modelled from the spec: Room.RemoveUser deletes the user id from the
member set (Go map delete). -/
def Room.removeUser (r : Room) (uid : String) : Room :=
  { r with users := r.users.filter (· ≠ uid) }

/-- Modelled from the spec: Room.AddMessage appends to the ordered history. -/
def Room.addMessage (r : Room) (m : Message) : Room :=
  { r with messages := r.messages ++ [m] }

/-- Modelled from the spec: the Client capability.  A client is bound to one
User (id and username); cid models the object identity of the transport
client, since the Go Hub keys its clients map by interface identity. -/
structure Client where
  cid : Nat
  uid : String
  uname : String
  deriving DecidableEq, Repr

/-! ### Hub state (src/internal/hub/hub.go)

The mutable fields of the Go Hub become the record below.  The room pointer
held inside each client object (GetRoomID / SetRoomID) is modelled as an
association list keyed by client identity, defaulting to the empty string.
Every SendMessage call is recorded in the trace sent as a pair of the
receiving client identity and the message.  nextId models the uuid source. -/

structure HubState where
  clients : List Client
  userClients : List (String × Nat)
  rooms : List (String × Room)
  clientRooms : List (Nat × String)
  sent : List (Nat × Message)
  nextId : Nat
  deriving DecidableEq, Repr

/-- Reading the room pointer of a client object (Client.GetRoomID). -/
def getRoomID (s : HubState) (cid : Nat) : String :=
  (alGet s.clientRooms cid).getD ""

/-- Writing the room pointer of a client object (Client.SetRoomID). -/
def setRoomID (s : HubState) (cid : Nat) (r : String) : HubState :=
  { s with clientRooms := alSet s.clientRooms cid r }

/-- Recording one SendMessage call to the client with identity cid. -/
def sendTo (s : HubState) (cid : Nat) (m : Message) : HubState :=
  { s with sent := s.sent ++ [(cid, m)] }

/-- Advancing the fresh-id counter after constructing a uuid message. -/
def bumpId (s : HubState) : HubState :=
  { s with nextId := s.nextId + 1 }

/-- Construction of a system-generated message with a fresh id,
modelling the Message literals built inside hub.go. -/
def freshMsg (s : HubState) (ty : MessageType) (content room : String) : Message :=
  { id := s.nextId, type := ty, content := content, sender := "System", room := room }

/-- Deliveries produced by one loop of broadcastToRoom: each member of the
room that has an entry in userClients receives the message once. -/
def roomDeliveries (uc : List (String × Nat)) (users : List String)
    (m : Message) : List (Nat × Message) :=
  users.filterMap fun uid => (alGet uc uid).map fun cid => (cid, m)

/-- Deliveries of broadcastToRoom in state s: none when the room id does not
resolve (the early return in hub.go line 263). -/
def roomDeliveriesAt (s : HubState) (roomID : String) (m : Message) :
    List (Nat × Message) :=
  match alGet s.rooms roomID with
  | none => []
  | some room => roomDeliveries s.userClients room.users m

/-- hub.go broadcastToRoom (lines 261 to 272): deliver the message to every
member of the room that is present in userClients; no history write. -/
def broadcastToRoom (s : HubState) (roomID : String) (m : Message) : HubState :=
  { s with sent := s.sent ++ roomDeliveriesAt s roomID m }

/-- Text of getRoomsList (hub.go lines 363 to 369). -/
def getRoomsList (s : HubState) : String :=
  s.rooms.foldl (fun acc p => acc ++ p.2.name ++ " (" ++ p.2.id ++ "), ")
    "Available rooms: "

/-- hub.go registerClient (lines 182 to 211): put the client into both
tables (the userClients entry for its user id is overwritten if present),
then send it a welcome message and a room-list message. -/
def registerClient (s : HubState) (c : Client) : HubState :=
  let s0 := { s with
    clients := if c ∈ s.clients then s.clients else s.clients ++ [c],
    userClients := alSet s.userClients c.uid c.cid }
  let welcome := freshMsg s0 .system "Welcome to the chat!" ""
  let s1 := sendTo (bumpId s0) c.cid welcome
  let roomsMsg := freshMsg s1 .system (getRoomsList s1) ""
  sendTo (bumpId s1) c.cid roomsMsg

/-- Shared block of unregisterClient (hub.go lines 219 to 237) and
handleJoinRoom (lines 289 to 305): read the room pointer of the client, and
when it is nonempty and names an existing room, remove the user from that
member set and broadcast a leave message to the room. -/
def leaveCurrent (s : HubState) (c : Client) : HubState :=
  let roomID := getRoomID s c.cid
  if roomID ≠ "" then
    match alGet s.rooms roomID with
    | some room =>
        let sA := { s with rooms := alSet s.rooms roomID (room.removeUser c.uid) }
        let lm := freshMsg sA .leave (c.uname ++ " left the room") roomID
        broadcastToRoom (bumpId sA) roomID lm
    | none => s
  else s

/-- hub.go unregisterClient (lines 213 to 244): when the client is present
in the clients table, remove it from the room named by its room pointer (if
that room exists) broadcasting a leave message there, then delete it from
clients and delete its user id from userClients. -/
def unregisterClient (s : HubState) (c : Client) : HubState :=
  if c ∈ s.clients then
    let s1 := leaveCurrent s c
    { s1 with
      clients := s1.clients.erase c,
      userClients := alErase s1.userClients c.uid }
  else s

/-- hub.go broadcastMessage (lines 246 to 259): for a message with a
nonempty room id, append it to the history of that room when the room
exists, then broadcast it to the room; messages with an empty room id are
ignored. -/
def broadcastMessage (s : HubState) (m : Message) : HubState :=
  if m.room ≠ "" then
    let s1 :=
      match alGet s.rooms m.room with
      | some room => { s with rooms := alSet s.rooms m.room (room.addMessage m) }
      | none => s
    broadcastToRoom s1 m.room m
  else s

/-- hub.go sendPrivateMessage (lines 274 to 281): deliver to the client
bound to the user id, or do nothing when the user id is not in userClients. -/
def sendPrivateMessage (s : HubState) (uid : String) (m : Message) : HubState :=
  match alGet s.userClients uid with
  | some cid => sendTo s cid m
  | none => s

/-- Tail of handleJoinRoom after the room to join has been resolved or
created (hub.go lines 315 to 333): add the user to the member set, set the
client room pointer, broadcast a join message to the room, then replay the
room history to the joining client. -/
def joinInto (s : HubState) (c : Client) (roomID : String) (room : Room) : HubState :=
  let s3 := { s with rooms := alSet s.rooms roomID (room.addUser c.uid) }
  let s4 := setRoomID s3 c.cid roomID
  let jm := freshMsg s4 .join (c.uname ++ " joined the room") roomID
  let s5 := broadcastToRoom (bumpId s4) roomID jm
  { s5 with sent := s5.sent ++ room.messages.map fun m => (c.cid, m) }

/-- hub.go handleJoinRoom (lines 283 to 336): leave the room named by the
current room pointer (if nonempty and existing, with a leave broadcast),
then join the target room, creating it with name equal to its id when it
does not exist. -/
def handleJoinRoom (s : HubState) (c : Client) (roomID : String) : HubState :=
  let s1 := leaveCurrent s c
  match alGet s1.rooms roomID with
  | some room => joinInto s1 c roomID room
  | none =>
      let room : Room := ⟨roomID, roomID, [], []⟩
      joinInto { s1 with rooms := alSet s1.rooms roomID room } c roomID room

/-- hub.go handleLeaveRoom (lines 338 to 361): when the named room exists,
remove the user from its member set, clear the client room pointer, and
broadcast a leave message to the room; otherwise nothing happens. -/
def handleLeaveRoom (s : HubState) (c : Client) (roomID : String) : HubState :=
  match alGet s.rooms roomID with
  | some room =>
      let sA := { s with rooms := alSet s.rooms roomID (room.removeUser c.uid) }
      let sB := setRoomID sA c.cid ""
      let lm := freshMsg sB .leave (c.uname ++ " left the room") roomID
      broadcastToRoom (bumpId sB) roomID lm
  | none => s

/-- State installed by Hub.Run before the loop starts (hub.go lines 79 to
82): a single default room general. -/
def initialState : HubState :=
  { clients := []
    userClients := []
    rooms := [("general", ⟨"general", "General Chat", [], []⟩)]
    clientRooms := []
    sent := []
    nextId := 0 }

/-- One operation drawn from the Hub intake channels (the select loop of
Hub.Run, hub.go lines 84 to 104). -/
inductive HubOp where
  | register (c : Client)
  | unregister (c : Client)
  | broadcast (m : Message)
  | privmsg (uid : String) (m : Message)
  | join (c : Client) (r : String)
  | leave (c : Client) (r : String)
  deriving DecidableEq, Repr

/-- Dispatch of one operation, as in the select loop of Hub.Run. -/
def applyOp (s : HubState) : HubOp → HubState
  | .register c => registerClient s c
  | .unregister c => unregisterClient s c
  | .broadcast m => broadcastMessage s m
  | .privmsg uid m => sendPrivateMessage s uid m
  | .join c r => handleJoinRoom s c r
  | .leave c r => handleLeaveRoom s c r

/-- Sequential processing of a list of operations by the Hub actor. -/
def applyOps (s : HubState) (ops : List HubOp) : HubState :=
  ops.foldl applyOp s

/-- History of a room as seen through the rooms table ([] when absent). -/
def roomHistory (s : HubState) (r : String) : List Message :=
  match alGet s.rooms r with
  | some room => room.messages
  | none => []

/-- Member set of a room as seen through the rooms table ([] when absent). -/
def roomUsers (s : HubState) (r : String) : List String :=
  match alGet s.rooms r with
  | some room => room.users
  | none => []

/-- Messages delivered to the client object cid, in delivery order. -/
def sentToClient (tr : List (Nat × Message)) (cid : Nat) : List Message :=
  (tr.filter fun e => e.1 = cid).map (·.2)

/-- Modelled from the spec: the room directory entries {id, name,
user_count} returned by listRooms (spec section 6; the HTTP layer computing
user_count is not under src/). -/
def listRooms (s : HubState) : List (String × String × Nat) :=
  s.rooms.map fun p => (p.1, p.2.name, p.2.users.length)

/-! ### Signaling Relay (src/video_service/internal/hub/hub.go)

The Relay client objects carry a bounded Send channel (capacity 256, set at
construction in src/video_service/internal/api/routes.go line 39).  The
channel contents are modelled as per-object queues keyed by object identity,
and closing a channel is modelled by counting close operations per object.
The JSON marshalling of the forwarded envelope is modelled as the envelope
itself: the payload is opaque and the four fields from, to, type, data are
carried verbatim. -/

/-- A signaling message envelope (hub.go Message struct).  The Go field
names From and To are keywords in Lean and appear here as fromId and toId. -/
structure VMsg where
  fromId : String
  toId : String
  type : String
  data : String
  deriving DecidableEq, Repr

/-- A Relay client: cid is the object identity of the Go Client pointer,
id the identity string it registered under. -/
structure VClient where
  cid : Nat
  id : String
  deriving DecidableEq, Repr

/-- Capacity of the Send channel of every Relay client
(routes.go line 39: make(chan []byte, 256)). -/
def sendChanCap : Nat := 256

/-- State of the Relay actor: the clients table (id to object identity),
the contents of the Send channel of each client object, and how many times
the Send channel of each object has been closed. -/
structure RelayState where
  clients : List (String × Nat)
  queues : List (Nat × List VMsg)
  closeCounts : List (Nat × Nat)
  deriving DecidableEq, Repr

/-- Contents of the Send channel of the client object cid. -/
def queueOf (s : RelayState) (cid : Nat) : List VMsg :=
  (alGet s.queues cid).getD []

/-- Number of times the Send channel of the client object cid was closed. -/
def closeCount (s : RelayState) (cid : Nat) : Nat :=
  (alGet s.closeCounts cid).getD 0

/-- Relay register branch (hub.go lines 56 to 59):
h.clients[client.ID] = client. -/
def vregister (s : RelayState) (c : VClient) : RelayState :=
  { s with clients := alSet s.clients c.id c.cid }

/-- Relay unregister branch (hub.go lines 60 to 66): when the id of the
argument client is a key of the table, delete that key and close the Send
channel of the argument client; otherwise nothing happens. -/
def vunregister (s : RelayState) (c : VClient) : RelayState :=
  match alGet s.clients c.id with
  | some _ =>
      { s with
        clients := alErase s.clients c.id,
        closeCounts := alSet s.closeCounts c.cid (closeCount s c.cid + 1) }
  | none => s

/-- Relay broadcast branch (hub.go lines 67 to 92): when the destination id
is registered, the full envelope is enqueued on the Send channel of the
registered client unless the channel is full, in which case the message is
dropped (the default arm of the nonblocking select); when the destination
is not registered, the message is dropped. -/
def vforward (s : RelayState) (m : VMsg) : RelayState :=
  match alGet s.clients m.toId with
  | some cid =>
      let q := queueOf s cid
      if q.length < sendChanCap then
        { s with queues := alSet s.queues cid (q ++ [m]) }
      else s
  | none => s

/-! ### Supporting lemmas -/

theorem Room.messages_addUser (r : Room) (u : String) :
    (r.addUser u).messages = r.messages := by
  unfold Room.addUser
  split <;> rfl

theorem Room.users_addUser (r : Room) (u : String) :
    (r.addUser u).users = if u ∈ r.users then r.users else r.users ++ [u] := by
  unfold Room.addUser
  split <;> simp_all

theorem roomHistory_alSet_same_messages (s : HubState) (k rid : String)
    (room room2 : Room) (h : alGet s.rooms k = some room)
    (hm : room2.messages = room.messages) :
    roomHistory { s with rooms := alSet s.rooms k room2 } rid = roomHistory s rid := by
  unfold roomHistory
  by_cases e : k = rid
  · subst e
    simp [alGet_alSet_self, h, hm]
  · simp [alGet_alSet_ne _ _ _ _ e]

theorem roomHistory_alSet_new_empty (s : HubState) (k rid : String)
    (room2 : Room) (h : alGet s.rooms k = none) (hm : room2.messages = []) :
    roomHistory { s with rooms := alSet s.rooms k room2 } rid = roomHistory s rid := by
  unfold roomHistory
  by_cases e : k = rid
  · subst e
    simp [alGet_alSet_self, h, hm]
  · simp [alGet_alSet_ne _ _ _ _ e]

theorem roomHistory_broadcastToRoom (s : HubState) (r rid : String) (m : Message) :
    roomHistory (broadcastToRoom s r m) rid = roomHistory s rid := rfl

theorem roomHistory_leaveCurrent (s : HubState) (c : Client) (rid : String) :
    roomHistory (leaveCurrent s c) rid = roomHistory s rid := by
  unfold leaveCurrent
  dsimp only
  by_cases hr : getRoomID s c.cid ≠ ""
  · simp only [if_pos hr]
    cases hg : alGet s.rooms (getRoomID s c.cid) with
    | none => rfl
    | some room =>
        rw [roomHistory_broadcastToRoom]
        exact roomHistory_alSet_same_messages s _ rid room _ hg rfl
  · simp only [if_neg hr]

theorem roomHistory_joinInto (s : HubState) (c : Client) (roomID : String)
    (room : Room) (rid : String) (h : room.messages = roomHistory s roomID) :
    roomHistory (joinInto s c roomID room) rid = roomHistory s rid := by
  show roomHistory { s with rooms := alSet s.rooms roomID (room.addUser c.uid) } rid =
    roomHistory s rid
  by_cases e : roomID = rid
  · subst e
    unfold roomHistory
    rw [alGet_alSet_self]
    show (room.addUser c.uid).messages = _
    rw [Room.messages_addUser]
    exact h
  · unfold roomHistory
    rw [alGet_alSet_ne _ _ _ _ e]

/-! ### C5 -/

/-- C5: starting from a state with no rooms, a join of the room id general
auto-creates the room with name equal to the room id, and listRooms then
contains exactly the directory entry with id general and user count 1. -/
theorem joinRoom_autoProvision (s : HubState) (c : Client) (h : s.rooms = []) :
    listRooms (handleJoinRoom s c "general") = [("general", "general", 1)] := by
  have hl : leaveCurrent s c = s := by
    unfold leaveCurrent
    rw [h]
    simp [alGet]
  unfold handleJoinRoom
  simp only [hl]
  rw [show alGet s.rooms "general" = none from by rw [h]; rfl]
  dsimp only
  show listRooms { s with
    rooms := (alSet (alSet s.rooms "general" ⟨"general", "general", [], []⟩)
      "general" (Room.addUser ⟨"general", "general", [], []⟩ c.uid)) } = _
  rw [h]
  simp [listRooms, alSet, Room.addUser]

/-- Witness for C5 at the concrete state with the rooms table emptied. -/
theorem joinRoom_autoProvision_witness :
    ({ initialState with rooms := [] } : HubState).rooms = [] ∧
      listRooms (handleJoinRoom { initialState with rooms := [] }
        ⟨1, "u", "U"⟩ "general") = [("general", "general", 1)] :=
  ⟨rfl, joinRoom_autoProvision { initialState with rooms := [] } ⟨1, "u", "U"⟩ rfl⟩

/-! ### C8 -/

/-- C8: a private message addressed to a user id with no entry in
userClients leaves the Hub state completely unchanged (no membership or
history change, no delivery); the operation has no error result at all. -/
theorem sendPrivate_noop (s : HubState) (uid : String) (m : Message)
    (h : alGet s.userClients uid = none) : sendPrivateMessage s uid m = s := by
  simp [sendPrivateMessage, h]

/-- Witness for C8: a private message to an unconnected user id in the
initial state. -/
theorem sendPrivate_noop_witness :
    alGet initialState.userClients "ghost" = none ∧
      sendPrivateMessage initialState "ghost" ⟨0, .text, "x", "s", ""⟩ = initialState :=
  ⟨rfl, sendPrivate_noop initialState "ghost" ⟨0, .text, "x", "s", ""⟩ rfl⟩

/-! ### C9 -/

/-- C9: register, unregister, join, leave and private-message operations
never change the history of any room (join and leave notifications are
delivered through broadcastToRoom, which performs no history write, and a
room created by join starts with an empty history); only broadcastMessage
appends to a history, so the replay on join contains no notifications. -/
theorem histories_untouched_by_notifications (s : HubState) (c : Client)
    (r rid uid : String) (m : Message) :
    roomHistory (registerClient s c) rid = roomHistory s rid ∧
    roomHistory (unregisterClient s c) rid = roomHistory s rid ∧
    roomHistory (handleJoinRoom s c r) rid = roomHistory s rid ∧
    roomHistory (handleLeaveRoom s c r) rid = roomHistory s rid ∧
    roomHistory (sendPrivateMessage s uid m) rid = roomHistory s rid := by
  refine ⟨?_, ?_, ?_, ?_, ?_⟩
  · unfold registerClient
    rfl
  · unfold unregisterClient
    by_cases hc : c ∈ s.clients
    · simp only [if_pos hc]
      show roomHistory (leaveCurrent s c) rid = _
      exact roomHistory_leaveCurrent s c rid
    · simp only [if_neg hc]
  · unfold handleJoinRoom
    dsimp only
    cases hg : alGet (leaveCurrent s c).rooms r with
    | some room =>
        have hm : room.messages = roomHistory (leaveCurrent s c) r := by
          unfold roomHistory
          rw [hg]
        rw [roomHistory_joinInto _ c r room rid hm]
        exact roomHistory_leaveCurrent s c rid
    | none =>
        have hm : (⟨r, r, [], []⟩ : Room).messages =
            roomHistory { leaveCurrent s c with
              rooms := alSet (leaveCurrent s c).rooms r ⟨r, r, [], []⟩ } r := by
          unfold roomHistory
          rw [show ({ leaveCurrent s c with
            rooms := alSet (leaveCurrent s c).rooms r ⟨r, r, [], []⟩ } : HubState).rooms =
              alSet (leaveCurrent s c).rooms r ⟨r, r, [], []⟩ from rfl]
          rw [alGet_alSet_self]
        rw [roomHistory_joinInto _ c r _ rid hm]
        rw [roomHistory_alSet_new_empty (leaveCurrent s c) r rid _ hg rfl]
        exact roomHistory_leaveCurrent s c rid
  · unfold handleLeaveRoom
    cases hg : alGet s.rooms r with
    | none => rfl
    | some room =>
        dsimp only
        rw [roomHistory_broadcastToRoom]
        show roomHistory { s with rooms := alSet s.rooms r (room.removeUser c.uid) } rid = _
        exact roomHistory_alSet_same_messages s r rid room _ hg rfl
  · unfold sendPrivateMessage
    cases alGet s.userClients uid with
    | none => rfl
    | some cid => rfl

/-! ### C7 -/

/-- Destination state for the C7 witness with an empty Send channel. -/
def fwdStateA : RelayState := ⟨[("p", 7)], [], []⟩

/-- Destination state for the C7 witness with a saturated Send channel. -/
def fwdStateFull : RelayState :=
  ⟨[("p", 7)], [(7, List.replicate 256 ⟨"a", "p", "ice", "d"⟩)], []⟩

/-- Envelope forwarded in the C7 witness. -/
def fwdMsg : VMsg := ⟨"a", "p", "offer", "d"⟩

/-- C7: a Relay forward to a registered destination enqueues the full
envelope (from, to, type, data are all fields of VMsg) on the Send channel
of the registered client when the channel holds fewer than 256 entries, and
drops the message leaving the state unchanged when the channel is full (the
default arm of the nonblocking select, so the relay worker never blocks);
a forward to an unregistered destination leaves the state unchanged. -/
theorem relay_forward_spec (s : RelayState) (m : VMsg) (cid : Nat) :
    (alGet s.clients m.toId = some cid →
      (((queueOf s cid).length < sendChanCap →
        queueOf (vforward s m) cid = queueOf s cid ++ [m] ∧
        (∀ cid2, cid2 ≠ cid → queueOf (vforward s m) cid2 = queueOf s cid2) ∧
        (vforward s m).clients = s.clients ∧
        (vforward s m).closeCounts = s.closeCounts) ∧
      (sendChanCap ≤ (queueOf s cid).length → vforward s m = s))) ∧
    (alGet s.clients m.toId = none → vforward s m = s) := by
  constructor
  · intro hreg
    have hv : vforward s m =
        if (queueOf s cid).length < sendChanCap then
          { s with queues := alSet s.queues cid (queueOf s cid ++ [m]) }
        else s := by
      unfold vforward
      rw [hreg]
    constructor
    · intro hlen
      rw [hv, if_pos hlen]
      refine ⟨?_, ?_, rfl, rfl⟩
      · unfold queueOf
        simp [alGet_alSet_self]
      · intro cid2 hne
        unfold queueOf
        simp [alGet_alSet_ne _ _ _ _ (Ne.symm hne)]
    · intro hfull
      rw [hv, if_neg (Nat.not_lt.mpr hfull)]
  · intro hnone
    unfold vforward
    rw [hnone]

set_option maxRecDepth 8000 in
/-- Witness for C7: an enqueue on a short queue, a drop on a full queue,
and a drop to an unregistered destination, at concrete states. -/
theorem relay_forward_spec_witness :
    (alGet fwdStateA.clients fwdMsg.toId = some 7 ∧
      (queueOf fwdStateA 7).length < sendChanCap ∧
      queueOf (vforward fwdStateA fwdMsg) 7 = queueOf fwdStateA 7 ++ [fwdMsg]) ∧
    (sendChanCap ≤ (queueOf fwdStateFull 7).length ∧
      vforward fwdStateFull fwdMsg = fwdStateFull) ∧
    (alGet fwdStateA.clients "q" = none ∧
      vforward fwdStateA ⟨"a", "q", "offer", "d"⟩ = fwdStateA) :=
  ⟨⟨by decide, by decide,
      (((relay_forward_spec fwdStateA fwdMsg 7).1 (by decide)).1 (by decide)).1⟩,
    ⟨by decide,
      ((relay_forward_spec fwdStateFull fwdMsg 7).1 (by decide)).2 (by decide)⟩,
    ⟨by decide,
      (relay_forward_spec fwdStateA ⟨"a", "q", "offer", "d"⟩ 7).2 (by decide)⟩⟩

/-! ### C10 -/

theorem vunregister_preserves (c : VClient) (s : RelayState) (d : VClient)
    (hnd : (s.clients.map (·.1)).Nodup)
    (h1 : closeCount s c.cid ≤ 1)
    (h2 : (alGet s.clients c.id).isSome → closeCount s c.cid = 0)
    (hdc : d.cid = c.cid → d = c) :
    ((vunregister s d).clients.map (·.1)).Nodup ∧
      closeCount (vunregister s d) c.cid ≤ 1 ∧
      ((alGet (vunregister s d).clients c.id).isSome →
        closeCount (vunregister s d) c.cid = 0) := by
  have hv : vunregister s d =
      if (alGet s.clients d.id).isSome then
        ({ s with
          clients := alErase s.clients d.id,
          closeCounts := alSet s.closeCounts d.cid (closeCount s d.cid + 1) } :
            RelayState)
      else s := by
    unfold vunregister
    cases alGet s.clients d.id with
    | none => rfl
    | some x => rfl
  by_cases hg : (alGet s.clients d.id).isSome
  · rw [hv, if_pos hg]
    refine ⟨hnd.sublist (alErase_keys_sublist _ _), ?_, ?_⟩
    · show (alGet (alSet s.closeCounts d.cid (closeCount s d.cid + 1)) c.cid).getD 0 ≤ 1
      by_cases e : d.cid = c.cid
      · have hdceq := hdc e
        subst hdceq
        have h0 : closeCount s d.cid = 0 := h2 hg
        rw [alGet_alSet_self]
        simp [h0]
      · rw [alGet_alSet_ne _ _ _ _ e]
        exact h1
    · intro hsome
      show (alGet (alSet s.closeCounts d.cid (closeCount s d.cid + 1)) c.cid).getD 0 = 0
      change (alGet (alErase s.clients d.id) c.id).isSome = true at hsome
      by_cases eid : d.id = c.id
      · exfalso
        rw [eid] at hsome
        rw [alGet_alErase_self _ _ hnd] at hsome
        exact Bool.noConfusion hsome
      · rw [alGet_alErase_ne _ _ _ eid] at hsome
        have h0 := h2 hsome
        by_cases e : d.cid = c.cid
        · exact absurd (congrArg VClient.id (hdc e)) eid
        · rw [alGet_alSet_ne _ _ _ _ e]
          exact h0
  · rw [hv, if_neg hg]
    exact ⟨hnd, h1, h2⟩

theorem vunregister_fold_inv (c : VClient) (ds : List VClient) :
    ∀ (s : RelayState),
      (s.clients.map (·.1)).Nodup →
      closeCount s c.cid ≤ 1 →
      ((alGet s.clients c.id).isSome → closeCount s c.cid = 0) →
      (∀ d ∈ ds, d.cid = c.cid → d = c) →
      closeCount (ds.foldl vunregister s) c.cid ≤ 1 := by
  induction ds with
  | nil => intro s _ h1 _ _; exact h1
  | cons d rest ih =>
      intro s hnd h1 h2 hds
      have step := vunregister_preserves c s d hnd h1 h2 (hds d (by simp))
      exact ih (vunregister s d) step.1 step.2.1 step.2.2
        (fun e he => hds e (by simp [he]))

/-- State used by the C10 witness: one registered client. -/
def unregStateW : RelayState := ⟨[("x", 5)], [], []⟩

/-- C10: unregistering a Relay client whose id is not in the clients table
is a no-op (the table is unchanged and no Send channel is closed); and for
a client object registered once (its close count still zero), any sequence
of unregister operations by client objects that do not alias it closes its
Send channel at most once, provided the table keys are duplicate-free as Go
maps guarantee. -/
theorem relay_unregister_safe :
    (∀ (s : RelayState) (c : VClient),
      alGet s.clients c.id = none → vunregister s c = s) ∧
    (∀ (s : RelayState) (c : VClient) (ds : List VClient),
      (s.clients.map (·.1)).Nodup →
      closeCount s c.cid = 0 →
      (∀ d ∈ ds, d.cid = c.cid → d = c) →
      closeCount (ds.foldl vunregister s) c.cid ≤ 1) := by
  constructor
  · intro s c h
    unfold vunregister
    rw [h]
  · intro s c ds hnd h0 hds
    exact vunregister_fold_inv c ds s hnd (by rw [h0]; exact Nat.zero_le 1)
      (fun _ => h0) hds

/-- Witness for C10: the absent-id no-op at a concrete state, and a double
unregister of a once-registered client closing its channel exactly once. -/
theorem relay_unregister_safe_witness :
    (alGet unregStateW.clients "y" = none ∧
      vunregister unregStateW ⟨9, "y"⟩ = unregStateW) ∧
    closeCount ((([⟨5, "x"⟩, ⟨5, "x"⟩] : List VClient)).foldl vunregister
      unregStateW) 5 ≤ 1 :=
  ⟨⟨by decide, relay_unregister_safe.1 unregStateW ⟨9, "y"⟩ (by decide)⟩,
    relay_unregister_safe.2 unregStateW ⟨5, "x"⟩ [⟨5, "x"⟩, ⟨5, "x"⟩]
      (by decide) (by decide) (by decide)⟩

/-! ### C6 -/

theorem sentToClient_append (a b : List (Nat × Message)) (cid : Nat) :
    sentToClient (a ++ b) cid = sentToClient a cid ++ sentToClient b cid := by
  unfold sentToClient
  simp [List.filter_append]

theorem sentToClient_roomDeliveries (uc : List (String × Nat))
    (users : List String) (m : Message) (uid : String) (cid : Nat)
    (hval : (uc.map (·.2)).Nodup) (hu : users.Nodup)
    (hget : alGet uc uid = some cid) :
    sentToClient (roomDeliveries uc users m) cid =
      if uid ∈ users then [m] else [] := by
  induction users with
  | nil => simp [roomDeliveries, sentToClient]
  | cons u rest ih =>
      have hrest := ih (List.Nodup.of_cons hu)
      by_cases e : u = uid
      · subst e
        have hnot : u ∉ rest := (List.nodup_cons.1 hu).1
        have hrest0 : sentToClient (roomDeliveries uc rest m) cid = [] := by
          rw [hrest, if_neg hnot]
        simp only [roomDeliveries, List.filterMap_cons, hget, Option.map_some]
        show sentToClient ((cid, m) :: roomDeliveries uc rest m) cid = _
        unfold sentToClient
        simp only [List.filter_cons]
        rw [if_pos (by simp)]
        unfold sentToClient at hrest0
        simp [hrest0, List.mem_cons]
      · cases hgu : alGet uc u with
        | none =>
            simp only [roomDeliveries, List.filterMap_cons, hgu, Option.map_none]
            show sentToClient (roomDeliveries uc rest m) cid = _
            rw [hrest]
            simp [List.mem_cons, e, Ne.symm e]
        | some cid2 =>
            have hne : cid2 ≠ cid := by
              intro hcc
              exact e (alGet_inj hval hgu (hcc ▸ hget) ▸ rfl)
            simp only [roomDeliveries, List.filterMap_cons, hgu, Option.map_some]
            show sentToClient ((cid2, m) :: roomDeliveries uc rest m) cid = _
            unfold sentToClient
            simp only [List.filter_cons]
            rw [if_neg (by simpa using hne)]
            show sentToClient (roomDeliveries uc rest m) cid = _
            rw [hrest]
            simp [List.mem_cons, Ne.symm e]

/-- C6 (amended): a broadcast whose message names an existing room with a
NONEMPTY id appends the message to exactly that room history, changes no
membership and no table, and delivers exactly one copy to the client handle
of every member that is present in userClients (duplicate-free member sets
and handle values, as Go maps give); a broadcast naming a nonexistent room
is a complete no-op; and a broadcast whose message carries an empty room id
is a complete no-op even when a room with the empty id exists exists in the
table, which is the one correction to the claim. -/
theorem broadcastRoom_spec (s : HubState) (m : Message) (room : Room) :
    (m.room ≠ "" → alGet s.rooms m.room = some room →
      roomHistory (broadcastMessage s m) m.room = roomHistory s m.room ++ [m] ∧
      (∀ rid, rid ≠ m.room →
        roomHistory (broadcastMessage s m) rid = roomHistory s rid) ∧
      (∀ rid, roomUsers (broadcastMessage s m) rid = roomUsers s rid) ∧
      (broadcastMessage s m).clients = s.clients ∧
      (broadcastMessage s m).userClients = s.userClients ∧
      (broadcastMessage s m).clientRooms = s.clientRooms ∧
      (∀ uid cid, (s.userClients.map (·.2)).Nodup → room.users.Nodup →
        alGet s.userClients uid = some cid →
        sentToClient (broadcastMessage s m).sent cid =
          sentToClient s.sent cid ++ (if uid ∈ room.users then [m] else []))) ∧
    (m.room ≠ "" → alGet s.rooms m.room = none → broadcastMessage s m = s) ∧
    (m.room = "" → broadcastMessage s m = s) := by
  refine ⟨?_, ?_, ?_⟩
  · intro hne hreg
    have hb : broadcastMessage s m =
        broadcastToRoom { s with rooms := alSet s.rooms m.room (room.addMessage m) }
          m.room m := by
      unfold broadcastMessage
      rw [if_pos hne, hreg]
    have hda : roomDeliveriesAt
        { s with rooms := alSet s.rooms m.room (room.addMessage m) } m.room m =
        roomDeliveries s.userClients room.users m := by
      unfold roomDeliveriesAt
      rw [show ({ s with rooms := alSet s.rooms m.room (room.addMessage m) } :
        HubState).rooms = alSet s.rooms m.room (room.addMessage m) from rfl]
      rw [alGet_alSet_self]
      rfl
    refine ⟨?_, ?_, ?_, by rw [hb]; rfl, by rw [hb]; rfl, by rw [hb]; rfl, ?_⟩
    · rw [hb, roomHistory_broadcastToRoom]
      unfold roomHistory
      rw [show ({ s with rooms := alSet s.rooms m.room (room.addMessage m) } :
        HubState).rooms = alSet s.rooms m.room (room.addMessage m) from rfl]
      rw [alGet_alSet_self, hreg]
      rfl
    · intro rid hrid
      rw [hb, roomHistory_broadcastToRoom]
      unfold roomHistory
      rw [show ({ s with rooms := alSet s.rooms m.room (room.addMessage m) } :
        HubState).rooms = alSet s.rooms m.room (room.addMessage m) from rfl]
      rw [alGet_alSet_ne _ _ _ _ (Ne.symm hrid)]
    · intro rid
      rw [hb]
      show roomUsers { s with rooms := alSet s.rooms m.room (room.addMessage m) } rid =
        roomUsers s rid
      unfold roomUsers
      by_cases e : m.room = rid
      · subst e
        rw [show ({ s with rooms := alSet s.rooms m.room (room.addMessage m) } :
          HubState).rooms = alSet s.rooms m.room (room.addMessage m) from rfl]
        rw [alGet_alSet_self, hreg]
        rfl
      · rw [show ({ s with rooms := alSet s.rooms m.room (room.addMessage m) } :
          HubState).rooms = alSet s.rooms m.room (room.addMessage m) from rfl]
        rw [alGet_alSet_ne _ _ _ _ e]
    · intro uid cid hval hund hget
      rw [hb]
      show sentToClient (s.sent ++ roomDeliveriesAt
        { s with rooms := alSet s.rooms m.room (room.addMessage m) } m.room m) cid = _
      rw [hda, sentToClient_append,
        sentToClient_roomDeliveries s.userClients room.users m uid cid hval hund hget]
  · intro hne hnone
    unfold broadcastMessage
    rw [if_pos hne, hnone]
    show broadcastToRoom s m.room m = s
    unfold broadcastToRoom roomDeliveriesAt
    rw [hnone]
    simp
  · intro hempty
    unfold broadcastMessage
    rw [if_neg (by simp [hempty])]

/-- State used by the C6 counterexample: a client join of the empty-string
room id auto-creates a room whose id is the empty string. -/
def emptyRoomStateW : HubState := handleJoinRoom initialState ⟨1, "u", "U"⟩ ""

/-- Message used by the C6 counterexample. -/
def emptyRoomMsgW : Message := ⟨100, .text, "hi", "x", ""⟩

/-- Counterexample for C6 as stated: the state contains a room whose id is
the empty string, the message names exactly that room, yet the broadcast is
dropped: nothing is appended to the history of that room and no client
receives anything, because broadcastMessage tests the room id against the
empty string before looking it up. -/
theorem broadcastRoom_claim_counterexample :
    (alGet emptyRoomStateW.rooms "").isSome = true ∧
      emptyRoomMsgW.room = "" ∧
      broadcastMessage emptyRoomStateW emptyRoomMsgW = emptyRoomStateW ∧
      roomHistory emptyRoomStateW "" = [] := by
  refine ⟨by decide, rfl, by decide, by decide⟩

/-- State used by the C6 witness: room r with member u (client 1) and a
registered non-member v (client 2). -/
def bcastStateW : HubState :=
  { clients := [⟨1, "u", "U"⟩, ⟨2, "v", "V"⟩]
    userClients := [("u", 1), ("v", 2)]
    rooms := [("r", ⟨"r", "r", ["u"], []⟩)]
    clientRooms := [(1, "r")]
    sent := []
    nextId := 0 }

/-- Message used by the C6 witness. -/
def bcastMsgW : Message := ⟨9, .text, "hi", "u", "r"⟩

/-- Witness for C6: at the concrete state, the broadcast appends to the
history of room r, the member client receives exactly one copy, the
registered non-member receives nothing, and a broadcast naming a
nonexistent room changes nothing. -/
theorem broadcastRoom_spec_witness :
    roomHistory (broadcastMessage bcastStateW bcastMsgW) "r" =
      roomHistory bcastStateW "r" ++ [bcastMsgW] ∧
    sentToClient (broadcastMessage bcastStateW bcastMsgW).sent 1 =
      sentToClient bcastStateW.sent 1 ++ [bcastMsgW] ∧
    sentToClient (broadcastMessage bcastStateW bcastMsgW).sent 2 =
      sentToClient bcastStateW.sent 2 ∧
    broadcastMessage bcastStateW ⟨9, .text, "hi", "u", "nope"⟩ = bcastStateW := by
  have h := broadcastRoom_spec bcastStateW bcastMsgW ⟨"r", "r", ["u"], []⟩
  have hmain := h.1 (by decide) (by decide)
  refine ⟨hmain.1, ?_, ?_, ?_⟩
  · have hd := hmain.2.2.2.2.2.2 "u" 1 (by decide) (by decide) (by decide)
    simpa using hd
  · have hd := hmain.2.2.2.2.2.2 "v" 2 (by decide) (by decide) (by decide)
    simpa using hd
  · exact (broadcastRoom_spec bcastStateW ⟨9, .text, "hi", "u", "nope"⟩
      ⟨"r", "r", ["u"], []⟩).2.1 (by decide) (by decide)

/-! ### C3 -/

theorem mem_roomDeliveriesAt (s : HubState) (r : String) (m : Message) :
    ∀ e ∈ roomDeliveriesAt s r m, e.2 = m := by
  intro e he
  unfold roomDeliveriesAt at he
  cases hg : alGet s.rooms r with
  | none =>
      rw [hg] at he
      simp at he
  | some room =>
      rw [hg] at he
      unfold roomDeliveries at he
      obtain ⟨u, hu, hf⟩ := List.mem_filterMap.1 he
      obtain ⟨cid, hcid, hfa⟩ := Option.map_eq_some'.1 hf
      rw [← hfa]

theorem Room.removeUser_idem (r : Room) (u : String) :
    (r.removeUser u).removeUser u = r.removeUser u := by
  unfold Room.removeUser
  simp [List.filter_filter]

theorem handleLeaveRoom_fields (s : HubState) (c : Client) (R : String)
    (room : Room) (hg : alGet s.rooms R = some room) :
    (handleLeaveRoom s c R).rooms = alSet s.rooms R (room.removeUser c.uid) ∧
    (handleLeaveRoom s c R).clients = s.clients ∧
    (handleLeaveRoom s c R).userClients = s.userClients ∧
    (handleLeaveRoom s c R).clientRooms = alSet s.clientRooms c.cid "" ∧
    ∃ ds, (handleLeaveRoom s c R).sent = s.sent ++ ds ∧
      ∀ e ∈ ds, e.2.type = MessageType.leave := by
  unfold handleLeaveRoom
  rw [hg]
  refine ⟨rfl, rfl, rfl, rfl, _, rfl, ?_⟩
  intro e he
  rw [mem_roomDeliveriesAt _ _ _ e he]
  rfl

/-- C3 (amended): leaveRoom is idempotent on the member sets, the room
table, both client tables and the room pointer: after a second leave for
the same user and room they all equal what the first call produced; but
whenever the room exists, every call, including the second, broadcasts a
further leave message to the remaining members, because the code does not
test membership before broadcasting, so a leave for a user who is not in
the room still clears the pointer and broadcasts; only a leave naming a
nonexistent room is a complete no-op. -/
theorem leaveRoom_spec (s : HubState) (c : Client) (R : String) :
    ((handleLeaveRoom (handleLeaveRoom s c R) c R).rooms =
        (handleLeaveRoom s c R).rooms ∧
      (handleLeaveRoom (handleLeaveRoom s c R) c R).clients =
        (handleLeaveRoom s c R).clients ∧
      (handleLeaveRoom (handleLeaveRoom s c R) c R).userClients =
        (handleLeaveRoom s c R).userClients ∧
      (handleLeaveRoom (handleLeaveRoom s c R) c R).clientRooms =
        (handleLeaveRoom s c R).clientRooms) ∧
    (∃ ds, (handleLeaveRoom (handleLeaveRoom s c R) c R).sent =
        (handleLeaveRoom s c R).sent ++ ds ∧
      ∀ e ∈ ds, e.2.type = MessageType.leave) ∧
    (alGet s.rooms R = none → handleLeaveRoom s c R = s) := by
  cases hg : alGet s.rooms R with
  | none =>
      have h1 : handleLeaveRoom s c R = s := by
        unfold handleLeaveRoom
        rw [hg]
      refine ⟨⟨by rw [h1, h1], by rw [h1, h1], by rw [h1, h1], by rw [h1, h1]⟩,
        ⟨[], by rw [h1, h1]; simp, by simp⟩, fun _ => h1⟩
  | some room =>
      obtain ⟨hr1, hc1, hu1, hp1, hs1⟩ := handleLeaveRoom_fields s c R room hg
      have hal1 : alGet (handleLeaveRoom s c R).rooms R =
          some (room.removeUser c.uid) := by
        rw [hr1]
        exact alGet_alSet_self _ _ _
      obtain ⟨hr2, hc2, hu2, hp2, hs2⟩ :=
        handleLeaveRoom_fields (handleLeaveRoom s c R) c R _ hal1
      refine ⟨⟨?_, hc2, hu2, ?_⟩, hs2, ?_⟩
      · rw [hr2, Room.removeUser_idem]
        exact alSet_eq_of_alGet _ _ _ hal1
      · rw [hp2]
        refine alSet_eq_of_alGet _ _ _ ?_
        rw [hp1]
        exact alGet_alSet_self _ _ _
      · intro hnone
        exact absurd hnone (by simp)

/-- State used by the C3 counterexample: clients X and Y registered and
both joined to the room general. -/
def leaveStateW : HubState :=
  applyOps initialState [.register ⟨1, "a", "X"⟩, .register ⟨2, "b", "Y"⟩,
    .join ⟨1, "a", "X"⟩ "general", .join ⟨2, "b", "Y"⟩ "general"]

/-- One leave of X from general. -/
def leaveOnceW : HubState := handleLeaveRoom leaveStateW ⟨1, "a", "X"⟩ "general"

/-- A second leave of X from general. -/
def leaveTwiceW : HubState := handleLeaveRoom leaveOnceW ⟨1, "a", "X"⟩ "general"

/-- Counterexample for C3 as stated: the member set is unchanged by the
second leave, but the second call again delivers a leave message to the
remaining member Y (client 2), so it is neither true that only the first
call produces a leave broadcast nor that a leave for a user who is not in
the room is a no-op. -/
theorem leaveRoom_claim_counterexample :
    roomUsers leaveTwiceW "general" = roomUsers leaveOnceW "general" ∧
      leaveTwiceW.sent.length = leaveOnceW.sent.length + 1 ∧
      (leaveTwiceW.sent.getLast?.map fun e => (e.1, e.2.type)) =
        some (2, MessageType.leave) := by
  refine ⟨by decide, by decide, by decide⟩

/-- Witness for C3: the nonexistent-room no-op at a concrete state. -/
theorem leaveRoom_spec_witness :
    alGet leaveStateW.rooms "nope" = none ∧
      handleLeaveRoom leaveStateW ⟨1, "a", "X"⟩ "nope" = leaveStateW :=
  ⟨by decide, (leaveRoom_spec leaveStateW ⟨1, "a", "X"⟩ "nope").2.2 (by decide)⟩

/-! ### C2 -/

theorem alGet_eq_none_iff [DecidableEq α] (l : List (α × β)) (k : α) :
    alGet l k = none ↔ k ∉ l.map (·.1) := by
  induction l with
  | nil => simp [alGet]
  | cons p rest ih =>
      obtain ⟨k₀, v₀⟩ := p
      by_cases h₀ : k₀ = k
      · subst h₀
        simp [alGet]
      · simp [alGet, h₀, ih, Ne.symm h₀]

theorem leaveCurrent_tables (s : HubState) (c : Client) :
    (leaveCurrent s c).clients = s.clients ∧
    (leaveCurrent s c).userClients = s.userClients ∧
    (leaveCurrent s c).clientRooms = s.clientRooms := by
  unfold leaveCurrent
  dsimp only
  by_cases hr : getRoomID s c.cid ≠ ""
  · simp only [if_pos hr]
    cases alGet s.rooms (getRoomID s c.cid) <;>
      exact ⟨by trivial, by trivial, by trivial⟩
  · simp only [if_neg hr]
    exact ⟨by trivial, by trivial, by trivial⟩

theorem broadcastMessage_tables (s : HubState) (m : Message) :
    (broadcastMessage s m).clients = s.clients ∧
    (broadcastMessage s m).userClients = s.userClients := by
  unfold broadcastMessage
  by_cases hr : m.room ≠ ""
  · simp only [if_pos hr]
    cases alGet s.rooms m.room <;> exact ⟨by trivial, by trivial⟩
  · simp only [if_neg hr]
    exact ⟨by trivial, by trivial⟩

theorem sendPrivateMessage_tables (s : HubState) (uid : String) (m : Message) :
    (sendPrivateMessage s uid m).clients = s.clients ∧
    (sendPrivateMessage s uid m).userClients = s.userClients := by
  unfold sendPrivateMessage
  cases alGet s.userClients uid <;> exact ⟨rfl, rfl⟩

theorem handleJoinRoom_tables (s : HubState) (c : Client) (r : String) :
    (handleJoinRoom s c r).clients = s.clients ∧
    (handleJoinRoom s c r).userClients = s.userClients := by
  unfold handleJoinRoom
  dsimp only
  obtain ⟨hc, hu, _⟩ := leaveCurrent_tables s c
  cases alGet (leaveCurrent s c).rooms r <;> exact ⟨hc, hu⟩

theorem handleLeaveRoom_tables (s : HubState) (c : Client) (r : String) :
    (handleLeaveRoom s c r).clients = s.clients ∧
    (handleLeaveRoom s c r).userClients = s.userClients := by
  unfold handleLeaveRoom
  cases alGet s.rooms r <;> exact ⟨rfl, rfl⟩

/-- Invariant I2: user ids of the registered clients are duplicate-free,
the userClients keys are duplicate-free, and the two sets coincide. -/
abbrev InvC2 (s : HubState) : Prop :=
  (s.clients.map (·.uid)).Nodup ∧
  (s.userClients.map (·.1)).Nodup ∧
  (∀ u ∈ s.userClients.map (·.1), u ∈ s.clients.map (·.uid)) ∧
  (∀ u ∈ s.clients.map (·.uid), u ∈ s.userClients.map (·.1))

/-- Well-formedness of an operation sequence for I2: every register uses a
user id that is not currently in the user-lookup table. -/
def regOkB (s : HubState) : List HubOp → Bool
  | [] => true
  | op :: rest =>
      (match op with
       | .register c => (alGet s.userClients c.uid).isNone
       | _ => true) && regOkB (applyOp s op) rest

theorem registerClient_inv (s : HubState) (c : Client) (hInv : InvC2 s)
    (hfresh : alGet s.userClients c.uid = none) : InvC2 (registerClient s c) := by
  obtain ⟨hndU, hndK, hKU, hUK⟩ := hInv
  have hcu : c.uid ∉ s.userClients.map (·.1) := (alGet_eq_none_iff _ _).1 hfresh
  have hcu2 : c.uid ∉ s.clients.map (·.uid) := fun hmem => hcu (hUK _ hmem)
  have hcc : c ∉ s.clients := fun hmem => hcu2 (List.mem_map.2 ⟨c, hmem, rfl⟩)
  have hcl : (registerClient s c).clients = s.clients ++ [c] := by
    unfold registerClient
    dsimp only
    rw [if_neg hcc]
    rfl
  have huc : (registerClient s c).userClients = alSet s.userClients c.uid c.cid := rfl
  refine ⟨?_, ?_, ?_, ?_⟩
  · rw [hcl, List.map_append]
    simp [List.nodup_append, hndU, hcu2]
  · rw [huc, alSet_keys_of_none _ _ _ hfresh]
    simp [List.nodup_append, hndK, hcu]
  · intro u hu
    rw [huc, alSet_keys_of_none _ _ _ hfresh] at hu
    rw [hcl, List.map_append]
    rcases List.mem_append.1 hu with h | h
    · exact List.mem_append.2 (Or.inl (hKU u h))
    · exact List.mem_append.2 (Or.inr (by simpa using h))
  · intro u hu
    rw [hcl, List.map_append] at hu
    rw [huc, alSet_keys_of_none _ _ _ hfresh]
    rcases List.mem_append.1 hu with h | h
    · exact List.mem_append.2 (Or.inl (hUK u h))
    · exact List.mem_append.2 (Or.inr (by simpa using h))

theorem tables_erase_inv (cl : List Client) (uc : List (String × Nat))
    (c : Client)
    (hndU : (cl.map (·.uid)).Nodup) (hndK : (uc.map (·.1)).Nodup)
    (hKU : ∀ u ∈ uc.map (·.1), u ∈ cl.map (·.uid))
    (hUK : ∀ u ∈ cl.map (·.uid), u ∈ uc.map (·.1)) (hc : c ∈ cl) :
    ((cl.erase c).map (·.uid)).Nodup ∧
    ((alErase uc c.uid).map (·.1)).Nodup ∧
    (∀ u ∈ (alErase uc c.uid).map (·.1), u ∈ (cl.erase c).map (·.uid)) ∧
    (∀ u ∈ (cl.erase c).map (·.uid), u ∈ (alErase uc c.uid).map (·.1)) := by
  have hclN : cl.Nodup := hndU.of_map _
  refine ⟨?_, ?_, ?_, ?_⟩
  · exact hndU.sublist ((List.erase_sublist c cl).map _)
  · exact hndK.sublist (alErase_keys_sublist uc c.uid)
  · intro u hu
    have hule : u ∈ uc.map (·.1) := (alErase_keys_sublist uc c.uid).subset hu
    have hne : u ≠ c.uid := by
      intro he
      subst he
      have h0 := alGet_alErase_self uc c.uid hndK
      exact absurd hu ((alGet_eq_none_iff _ _).1 h0)
    obtain ⟨d, hd, hdu⟩ := List.mem_map.1 (hKU u hule)
    have hdc : d ≠ c := fun he => hne (by rw [← hdu, he])
    exact List.mem_map.2 ⟨d, (List.mem_erase_of_ne hdc).2 hd, hdu⟩
  · intro u hu
    obtain ⟨d, hd, hdu⟩ := List.mem_map.1 hu
    have hdcl : d ∈ cl := (List.erase_sublist c cl).subset hd
    have hdc : d ≠ c := ((hclN.mem_erase_iff).1 hd).1
    have hne : u ≠ c.uid := by
      intro he
      exact hdc (List.inj_on_of_nodup_map hndU hdcl hc (by rw [hdu, he]))
    have hkeys : u ∈ uc.map (·.1) := hUK u (List.mem_map.2 ⟨d, hdcl, hdu⟩)
    have h1 : alGet uc u ≠ none := fun he => ((alGet_eq_none_iff _ _).1 he) hkeys
    have h2 : alGet (alErase uc c.uid) u ≠ none := by
      rw [alGet_alErase_ne _ _ _ (Ne.symm hne)]
      exact h1
    by_contra hnot
    exact h2 ((alGet_eq_none_iff _ _).2 hnot)

theorem unregisterClient_inv (s : HubState) (c : Client) (hInv : InvC2 s) :
    InvC2 (unregisterClient s c) := by
  obtain ⟨hndU, hndK, hKU, hUK⟩ := hInv
  by_cases hc : c ∈ s.clients
  · have hC : (unregisterClient s c).clients = s.clients.erase c := by
      unfold unregisterClient
      rw [if_pos hc]
      show (leaveCurrent s c).clients.erase c = s.clients.erase c
      rw [(leaveCurrent_tables s c).1]
    have hU : (unregisterClient s c).userClients = alErase s.userClients c.uid := by
      unfold unregisterClient
      rw [if_pos hc]
      show alErase (leaveCurrent s c).userClients c.uid = alErase s.userClients c.uid
      rw [(leaveCurrent_tables s c).2.1]
    obtain ⟨h1, h2, h3, h4⟩ :=
      tables_erase_inv s.clients s.userClients c hndU hndK hKU hUK hc
    exact ⟨by rw [hC]; exact h1, by rw [hU]; exact h2,
      by rw [hC, hU]; exact h3, by rw [hC, hU]; exact h4⟩
  · have heq : unregisterClient s c = s := by
      unfold unregisterClient
      rw [if_neg hc]
    rw [heq]
    exact ⟨hndU, hndK, hKU, hUK⟩

theorem applyOps_inv (ops : List HubOp) :
    ∀ (s : HubState), InvC2 s → regOkB s ops = true → InvC2 (applyOps s ops) := by
  induction ops with
  | nil => intro s hInv _; exact hInv
  | cons op rest ih =>
      intro s hInv hok
      unfold regOkB at hok
      rw [Bool.and_eq_true] at hok
      have hstep : InvC2 (applyOp s op) := by
        cases op with
        | register c =>
            exact registerClient_inv s c hInv
              (Option.isNone_iff_eq_none.1 hok.1)
        | unregister c => exact unregisterClient_inv s c hInv
        | broadcast m =>
            obtain ⟨hcl, huc⟩ := broadcastMessage_tables s m
            obtain ⟨hndU, hndK, hKU, hUK⟩ := hInv
            exact ⟨by rw [show (applyOp s (.broadcast m)).clients =
                (broadcastMessage s m).clients from rfl, hcl]; exact hndU,
              by rw [show (applyOp s (.broadcast m)).userClients =
                (broadcastMessage s m).userClients from rfl, huc]; exact hndK,
              by rw [show (applyOp s (.broadcast m)).userClients =
                (broadcastMessage s m).userClients from rfl, huc,
                show (applyOp s (.broadcast m)).clients =
                (broadcastMessage s m).clients from rfl, hcl]; exact hKU,
              by rw [show (applyOp s (.broadcast m)).userClients =
                (broadcastMessage s m).userClients from rfl, huc,
                show (applyOp s (.broadcast m)).clients =
                (broadcastMessage s m).clients from rfl, hcl]; exact hUK⟩
        | privmsg uid m =>
            obtain ⟨hcl, huc⟩ := sendPrivateMessage_tables s uid m
            obtain ⟨hndU, hndK, hKU, hUK⟩ := hInv
            exact ⟨by rw [show (applyOp s (.privmsg uid m)).clients =
                (sendPrivateMessage s uid m).clients from rfl, hcl]; exact hndU,
              by rw [show (applyOp s (.privmsg uid m)).userClients =
                (sendPrivateMessage s uid m).userClients from rfl, huc]; exact hndK,
              by rw [show (applyOp s (.privmsg uid m)).userClients =
                (sendPrivateMessage s uid m).userClients from rfl, huc,
                show (applyOp s (.privmsg uid m)).clients =
                (sendPrivateMessage s uid m).clients from rfl, hcl]; exact hKU,
              by rw [show (applyOp s (.privmsg uid m)).userClients =
                (sendPrivateMessage s uid m).userClients from rfl, huc,
                show (applyOp s (.privmsg uid m)).clients =
                (sendPrivateMessage s uid m).clients from rfl, hcl]; exact hUK⟩
        | join c r =>
            obtain ⟨hcl, huc⟩ := handleJoinRoom_tables s c r
            obtain ⟨hndU, hndK, hKU, hUK⟩ := hInv
            exact ⟨by rw [show (applyOp s (.join c r)).clients =
                (handleJoinRoom s c r).clients from rfl, hcl]; exact hndU,
              by rw [show (applyOp s (.join c r)).userClients =
                (handleJoinRoom s c r).userClients from rfl, huc]; exact hndK,
              by rw [show (applyOp s (.join c r)).userClients =
                (handleJoinRoom s c r).userClients from rfl, huc,
                show (applyOp s (.join c r)).clients =
                (handleJoinRoom s c r).clients from rfl, hcl]; exact hKU,
              by rw [show (applyOp s (.join c r)).userClients =
                (handleJoinRoom s c r).userClients from rfl, huc,
                show (applyOp s (.join c r)).clients =
                (handleJoinRoom s c r).clients from rfl, hcl]; exact hUK⟩
        | leave c r =>
            obtain ⟨hcl, huc⟩ := handleLeaveRoom_tables s c r
            obtain ⟨hndU, hndK, hKU, hUK⟩ := hInv
            exact ⟨by rw [show (applyOp s (.leave c r)).clients =
                (handleLeaveRoom s c r).clients from rfl, hcl]; exact hndU,
              by rw [show (applyOp s (.leave c r)).userClients =
                (handleLeaveRoom s c r).userClients from rfl, huc]; exact hndK,
              by rw [show (applyOp s (.leave c r)).userClients =
                (handleLeaveRoom s c r).userClients from rfl, huc,
                show (applyOp s (.leave c r)).clients =
                (handleLeaveRoom s c r).clients from rfl, hcl]; exact hKU,
              by rw [show (applyOp s (.leave c r)).userClients =
                (handleLeaveRoom s c r).userClients from rfl, huc,
                show (applyOp s (.leave c r)).clients =
                (handleLeaveRoom s c r).clients from rfl, hcl]; exact hUK⟩
      exact ih (applyOp s op) hstep hok.2

/-- C2 (amended): the userClients entry for the user id of a freshly
registered client always points at that client (last-register-wins for the
lookup table), and invariant I2, the keys of userClients coincide with the
user ids of the registered clients, is preserved by every operation
sequence in which no register uses a user id that is currently registered.
The correction: registering a duplicate user id only overwrites the lookup
entry and leaves the superseded client object in the clients set, so a
later unregister of the superseded client deletes the shared user id from
the lookup table and does disturb the new registration. -/
theorem userIndex_consistency :
    (∀ (s : HubState) (c : Client),
      alGet (registerClient s c).userClients c.uid = some c.cid) ∧
    (∀ (s : HubState) (ops : List HubOp),
      InvC2 s → regOkB s ops = true → InvC2 (applyOps s ops)) := by
  constructor
  · intro s c
    show alGet (alSet s.userClients c.uid c.cid) c.uid = some c.cid
    exact alGet_alSet_self _ _ _
  · intro s ops hInv hok
    exact applyOps_inv ops s hInv hok

/-- State used by the C2 counterexample: client A registered under user id
u, then client B registered under the same user id, then A unregistered. -/
def dupRegStateW : HubState :=
  applyOps initialState [.register ⟨1, "u", "A"⟩, .register ⟨2, "u", "B"⟩,
    .unregister ⟨1, "u", "A"⟩]

/-- Counterexample for C2 as stated: after the unregister of the superseded
client A, client B is still registered under user id u, but the
user-lookup table is empty: its keys do not equal the set of
currently-registered user ids, and the new registration was disturbed. -/
theorem userIndex_claim_counterexample :
    dupRegStateW.clients.map (·.uid) = ["u"] ∧
      dupRegStateW.userClients = [] := by
  refine ⟨by decide, by decide⟩

/-- Witness for C2: a register, unregister, re-register sequence with fresh
user ids at each register, starting from the initial state. -/
theorem userIndex_consistency_witness :
    alGet (registerClient initialState ⟨1, "u", "A"⟩).userClients "u" = some 1 ∧
      (InvC2 initialState ∧
        regOkB initialState [.register ⟨1, "u", "A"⟩, .unregister ⟨1, "u", "A"⟩,
          .register ⟨2, "u", "B"⟩] = true ∧
        InvC2 (applyOps initialState [.register ⟨1, "u", "A"⟩,
          .unregister ⟨1, "u", "A"⟩, .register ⟨2, "u", "B"⟩])) :=
  ⟨userIndex_consistency.1 initialState ⟨1, "u", "A"⟩,
    by decide, by decide,
    userIndex_consistency.2 initialState
      [.register ⟨1, "u", "A"⟩, .unregister ⟨1, "u", "A"⟩, .register ⟨2, "u", "B"⟩]
      (by decide) (by decide)⟩

/-! ### C1 -/

/-- Freshness of the id counter: every message recorded in any room history
carries an id below the counter.  This holds in every state the Hub can
reach from initialState with ids drawn from the counter, and rules out a
generated notification colliding with a history entry. -/
abbrev idsFresh (s : HubState) : Prop :=
  ∀ p ∈ s.rooms, ∀ msg ∈ p.2.messages, msg.id < s.nextId

theorem idsFresh_history (s : HubState) (R : String) (h : idsFresh s) :
    ∀ msg ∈ roomHistory s R, msg.id < s.nextId := by
  intro msg hm
  unfold roomHistory at hm
  cases hg : alGet s.rooms R with
  | none =>
      rw [hg] at hm
      simp at hm
  | some room =>
      rw [hg] at hm
      exact h (R, room) (alGet_mem hg) msg hm

theorem leaveCurrent_sent_spec (s : HubState) (c : Client) :
    ∃ pre, (leaveCurrent s c).sent = s.sent ++ pre ∧
      (∀ e ∈ pre, e.2.id = s.nextId) ∧
      s.nextId ≤ (leaveCurrent s c).nextId := by
  unfold leaveCurrent
  dsimp only
  by_cases hr : getRoomID s c.cid ≠ ""
  · simp only [if_pos hr]
    cases hg : alGet s.rooms (getRoomID s c.cid) with
    | none => exact ⟨[], by simp, by simp, Nat.le_refl _⟩
    | some room =>
        refine ⟨_, rfl, ?_, ?_⟩
        · intro e he
          rw [mem_roomDeliveriesAt _ _ _ e he]
          rfl
        · exact Nat.le_succ _
  · simp only [if_neg hr]
    exact ⟨[], by simp, by simp, Nat.le_refl _⟩

theorem joinInto_sent_spec (s : HubState) (c : Client) (roomID : String)
    (room : Room) :
    ∃ ds, (joinInto s c roomID room).sent =
        s.sent ++ ds ++ room.messages.map (fun msg => (c.cid, msg)) ∧
      ∀ e ∈ ds, e.2.id = s.nextId := by
  refine ⟨_, rfl, ?_⟩
  intro e he
  rw [mem_roomDeliveriesAt _ _ _ e he]
  rfl

theorem applyOp_sent_mono (s : HubState) (op : HubOp) :
    ∃ ds, (applyOp s op).sent = s.sent ++ ds := by
  cases op with
  | register c =>
      unfold applyOp registerClient sendTo bumpId
      dsimp only
      exact ⟨_, List.append_assoc _ _ _⟩
  | unregister c =>
      unfold applyOp unregisterClient
      dsimp only
      by_cases hc : c ∈ s.clients
      · rw [if_pos hc]
        obtain ⟨pre, hp, _, _⟩ := leaveCurrent_sent_spec s c
        exact ⟨pre, hp⟩
      · rw [if_neg hc]
        exact ⟨[], (List.append_nil _).symm⟩
  | broadcast m =>
      unfold applyOp broadcastMessage
      dsimp only
      by_cases hr : m.room ≠ ""
      · rw [if_pos hr]
        cases alGet s.rooms m.room
        · exact ⟨_, rfl⟩
        · exact ⟨_, rfl⟩
      · rw [if_neg hr]
        exact ⟨[], (List.append_nil _).symm⟩
  | privmsg uid m =>
      unfold applyOp sendPrivateMessage
      dsimp only
      cases alGet s.userClients uid
      · exact ⟨[], (List.append_nil _).symm⟩
      · exact ⟨_, rfl⟩
  | join c r =>
      unfold applyOp handleJoinRoom
      dsimp only
      obtain ⟨pre, hp, _, _⟩ := leaveCurrent_sent_spec s c
      cases hg : alGet (leaveCurrent s c).rooms r with
      | some room =>
          obtain ⟨ds, hd, _⟩ := joinInto_sent_spec (leaveCurrent s c) c r room
          refine ⟨pre ++ (ds ++ room.messages.map fun msg => (c.cid, msg)), ?_⟩
          rw [hd, hp]
          simp [List.append_assoc]
      | none =>
          obtain ⟨ds, hd, _⟩ := joinInto_sent_spec
            { leaveCurrent s c with
              rooms := alSet (leaveCurrent s c).rooms r ⟨r, r, [], []⟩ } c r
            ⟨r, r, [], []⟩
          rw [show ({ leaveCurrent s c with
            rooms := alSet (leaveCurrent s c).rooms r ⟨r, r, [], []⟩ } :
              HubState).sent = (leaveCurrent s c).sent from rfl] at hd
          refine ⟨pre ++ ds, ?_⟩
          rw [hd, hp]
          simp [List.append_assoc]
  | leave c r =>
      unfold applyOp handleLeaveRoom
      dsimp only
      cases alGet s.rooms r
      · exact ⟨[], (List.append_nil _).symm⟩
      · exact ⟨_, rfl⟩

theorem applyOps_sent_mono (ops : List HubOp) :
    ∀ s : HubState, ∃ ds, (applyOps s ops).sent = s.sent ++ ds := by
  induction ops with
  | nil => intro s; exact ⟨[], (List.append_nil _).symm⟩
  | cons op rest ih =>
      intro s
      obtain ⟨d1, h1⟩ := applyOp_sent_mono s op
      obtain ⟨d2, h2⟩ := ih (applyOp s op)
      refine ⟨d1 ++ d2, ?_⟩
      rw [show applyOps s (op :: rest) = applyOps (applyOp s op) rest from rfl,
        h2, h1, List.append_assoc]

/-- C1: joining a room replays the whole prior history of that room to the
joining client only, in original order, as the final deliveries of the join
operation: every earlier delivery emitted by the join is a freshly
generated notification that does not belong to the history (given that all
recorded history ids are below the fresh-id counter, as holds in reachable
states); and every operation processed after the join only appends to the
delivery trace, so a message broadcast to the room after the join reaches
the joining client only after the whole replay. -/
theorem joinRoom_replay (s : HubState) (c : Client) (R : String)
    (h : idsFresh s) :
    (∃ pre, (handleJoinRoom s c R).sent =
        s.sent ++ pre ++ (roomHistory s R).map (fun msg => (c.cid, msg)) ∧
      ∀ e ∈ pre, e.2 ∉ roomHistory s R) ∧
    (∀ ops : List HubOp, ∃ ds, (applyOps (handleJoinRoom s c R) ops).sent =
      (handleJoinRoom s c R).sent ++ ds) := by
  constructor
  · have hbound := idsFresh_history s R h
    obtain ⟨pre1, hp1, hid1, hn1⟩ := leaveCurrent_sent_spec s c
    have hHist : roomHistory (leaveCurrent s c) R = roomHistory s R :=
      roomHistory_leaveCurrent s c R
    unfold handleJoinRoom
    dsimp only
    cases hg : alGet (leaveCurrent s c).rooms R with
    | some room =>
        obtain ⟨ds, hd, hid2⟩ := joinInto_sent_spec (leaveCurrent s c) c R room
        have hroommsg : room.messages = roomHistory s R := by
          rw [← hHist]
          unfold roomHistory
          rw [hg]
        refine ⟨pre1 ++ ds, ?_, ?_⟩
        · rw [hd, hp1, hroommsg]
          simp [List.append_assoc]
        · intro e he hmem
          rcases List.mem_append.1 he with h1 | h2
          · have hb := hbound e.2 hmem
            rw [hid1 e h1] at hb
            exact Nat.lt_irrefl _ hb
          · have hb := hbound e.2 hmem
            rw [hid2 e h2] at hb
            exact Nat.lt_irrefl _ (Nat.lt_of_le_of_lt hn1 hb)
    | none =>
        obtain ⟨ds, hd, hid2⟩ := joinInto_sent_spec
          { leaveCurrent s c with
            rooms := alSet (leaveCurrent s c).rooms R ⟨R, R, [], []⟩ } c R
          ⟨R, R, [], []⟩
        have hempty : roomHistory s R = [] := by
          rw [← hHist]
          unfold roomHistory
          rw [hg]
        rw [show ({ leaveCurrent s c with
          rooms := alSet (leaveCurrent s c).rooms R ⟨R, R, [], []⟩ } :
            HubState).sent = (leaveCurrent s c).sent from rfl] at hd
        refine ⟨pre1 ++ ds, ?_, ?_⟩
        · rw [hd, hp1, hempty]
          simp [List.append_assoc]
        · intro e he hmem
          rw [hempty] at hmem
          simp at hmem
  · intro ops
    exact applyOps_sent_mono ops _

/-- State used by the C1 witness: client X registered and joined to general
with two broadcasts recorded, the id counter above all recorded ids. -/
def replayStateW : HubState :=
  { applyOps initialState [.register ⟨1, "a", "X"⟩, .join ⟨1, "a", "X"⟩ "general",
      .broadcast ⟨50, .text, "m1", "X", "general"⟩,
      .broadcast ⟨51, .text, "m2", "X", "general"⟩] with nextId := 60 }

/-- Witness for C1: client Y joining general at the concrete state. -/
theorem joinRoom_replay_witness :
    idsFresh replayStateW ∧
      ((∃ pre, (handleJoinRoom replayStateW ⟨2, "b", "Y"⟩ "general").sent =
          replayStateW.sent ++ pre ++
            (roomHistory replayStateW "general").map (fun msg => (2, msg)) ∧
        ∀ e ∈ pre, e.2 ∉ roomHistory replayStateW "general") ∧
      (∀ ops : List HubOp,
        ∃ ds, (applyOps (handleJoinRoom replayStateW ⟨2, "b", "Y"⟩ "general") ops).sent =
          (handleJoinRoom replayStateW ⟨2, "b", "Y"⟩ "general").sent ++ ds)) :=
  ⟨by decide, joinRoom_replay replayStateW ⟨2, "b", "Y"⟩ "general" (by decide)⟩

/-! ### C4 -/

theorem mem_alSet_cases [DecidableEq α] {l : List (α × β)} {k : α} {v : β}
    {p : α × β} (hnd : (l.map (·.1)).Nodup) (hp : p ∈ alSet l k v) :
    p = (k, v) ∨ (p ∈ l ∧ p.1 ≠ k) := by
  induction l with
  | nil =>
      simp [alSet] at hp
      exact Or.inl hp
  | cons q rest ih =>
      obtain ⟨k₀, v₀⟩ := q
      simp only [List.map_cons, List.nodup_cons] at hnd
      by_cases h₀ : k₀ = k
      · subst h₀
        rw [show alSet ((k₀, v₀) :: rest) k₀ v = (k₀, v) :: rest from by
          simp [alSet]] at hp
        rcases List.mem_cons.1 hp with h | h
        · exact Or.inl h
        · refine Or.inr ⟨List.mem_cons_of_mem _ h, ?_⟩
          intro hpk
          exact hnd.1 (hpk ▸ List.mem_map.2 ⟨p, h, rfl⟩)
      · rw [show alSet ((k₀, v₀) :: rest) k v = (k₀, v₀) :: alSet rest k v from by
          simp [alSet, h₀]] at hp
        rcases List.mem_cons.1 hp with h | h
        · exact Or.inr ⟨by simp [h], by simp [h, h₀]⟩
        · rcases ih hnd.2 h with h1 | ⟨h2, h3⟩
          · exact Or.inl h1
          · exact Or.inr ⟨List.mem_cons_of_mem _ h2, h3⟩

theorem Room.mem_addUser (r : Room) (x u : String) :
    u ∈ (r.addUser x).users ↔ u ∈ r.users ∨ u = x := by
  unfold Room.addUser
  split
  · next h =>
      constructor
      · exact Or.inl
      · rintro (h1 | h2)
        · exact h1
        · rw [h2]
          exact h
  · next h => simp

/-- Invariant behind I1: room keys are duplicate-free, no room carries the
empty id, and every member of every room is the user of some client from cs
whose room pointer names exactly that room. -/
abbrev roomsInv (cs : List Client) (s : HubState) : Prop :=
  (s.rooms.map (·.1)).Nodup ∧
  ("" ∉ s.rooms.map (·.1)) ∧
  (∀ p ∈ s.rooms, ∀ u ∈ p.2.users, ∃ c ∈ cs, c.uid = u ∧ getRoomID s c.cid = p.1)

/-- Well-formedness of a join and leave sequence for I1: every operation is
a join of a nonempty room id or a leave of the room the client room pointer
currently names, by a client from cs. -/
def roomOkB (cs : List Client) (s : HubState) : List HubOp → Bool
  | [] => true
  | op :: rest =>
      (match op with
       | .join c r => decide (c ∈ cs) && decide (r ≠ "")
       | .leave c r => decide (c ∈ cs) && decide (r = getRoomID s c.cid)
       | _ => false) && roomOkB cs (applyOp s op) rest

theorem leaveCurrent_rooms (s : HubState) (c : Client) :
    ((leaveCurrent s c).rooms = s.rooms ∧
      (getRoomID s c.cid = "" ∨ alGet s.rooms (getRoomID s c.cid) = none)) ∨
    ∃ room, getRoomID s c.cid ≠ "" ∧
      alGet s.rooms (getRoomID s c.cid) = some room ∧
      (leaveCurrent s c).rooms =
        alSet s.rooms (getRoomID s c.cid) (room.removeUser c.uid) := by
  unfold leaveCurrent
  dsimp only
  by_cases hr : getRoomID s c.cid ≠ ""
  · simp only [if_pos hr]
    cases hg : alGet s.rooms (getRoomID s c.cid) with
    | none => exact Or.inl ⟨rfl, Or.inr rfl⟩
    | some room => exact Or.inr ⟨room, hr, rfl, rfl⟩
  · simp only [if_neg hr]
    exact Or.inl ⟨by trivial, Or.inl (by simpa using hr)⟩

theorem leaveCurrent_roomsInv (cs : List Client) (s : HubState) (c : Client)
    (hdU : (cs.map (·.uid)).Nodup) (hc : c ∈ cs) (hInv : roomsInv cs s) :
    roomsInv cs (leaveCurrent s c) ∧
      ∀ p ∈ (leaveCurrent s c).rooms, c.uid ∉ p.2.users := by
  obtain ⟨hndR, hnem, hcov⟩ := hInv
  have hgr : ∀ cid, getRoomID (leaveCurrent s c) cid = getRoomID s cid := by
    intro cid
    unfold getRoomID
    rw [(leaveCurrent_tables s c).2.2]
  have huniq : ∀ p ∈ s.rooms, ∀ u ∈ p.2.users, u = c.uid →
      getRoomID s c.cid = p.1 := by
    intro p hp u hu hue
    obtain ⟨c', hc', huid, hpt⟩ := hcov p hp u hu
    have : c' = c := List.inj_on_of_nodup_map hdU hc' hc (by rw [huid, hue])
    rw [← this]
    exact hpt
  rcases leaveCurrent_rooms s c with ⟨hR, hcase⟩ | ⟨room, hr, hg, hR⟩
  · constructor
    · refine ⟨by rw [hR]; exact hndR, by rw [hR]; exact hnem, ?_⟩
      intro p hp u hu
      rw [hR] at hp
      obtain ⟨c', hc', huid, hpt⟩ := hcov p hp u hu
      exact ⟨c', hc', huid, by rw [hgr]; exact hpt⟩
    · intro p hp hu
      rw [hR] at hp
      have hptr := huniq p hp c.uid hu rfl
      rcases hcase with h0 | h0
      · rw [h0] at hptr
        exact hnem (hptr ▸ List.mem_map.2 ⟨p, hp, rfl⟩)
      · rw [hptr] at h0
        rw [alGet_eq_none_iff] at h0
        exact h0 (List.mem_map.2 ⟨p, hp, rfl⟩)
  · have hkeys : ((leaveCurrent s c).rooms).map (·.1) = s.rooms.map (·.1) := by
      rw [hR]
      exact alSet_keys_of_mem _ _ _ (by rw [hg]; simp)
    constructor
    · refine ⟨by rw [hkeys]; exact hndR, by rw [hkeys]; exact hnem, ?_⟩
      intro p hp u hu
      rw [hR] at hp
      rcases mem_alSet_cases hndR hp with heq | ⟨hmem, hpk⟩
      · subst heq
        have hu2 : u ∈ room.users ∧ u ≠ c.uid := by
          have := hu
          unfold Room.removeUser at this
          simpa using this
        obtain ⟨c', hc', huid, hpt⟩ := hcov (getRoomID s c.cid, room)
          (alGet_mem hg) u hu2.1
        exact ⟨c', hc', huid, by rw [hgr]; exact hpt⟩
      · obtain ⟨c', hc', huid, hpt⟩ := hcov p hmem u hu
        exact ⟨c', hc', huid, by rw [hgr]; exact hpt⟩
    · intro p hp hu
      rw [hR] at hp
      rcases mem_alSet_cases hndR hp with heq | ⟨hmem, hpk⟩
      · subst heq
        unfold Room.removeUser at hu
        simp at hu
      · exact hpk (huniq p hmem c.uid hu rfl).symm

theorem joinInto_roomsInv (cs : List Client) (s : HubState) (c : Client)
    (roomID : String) (room : Room)
    (hdU : (cs.map (·.uid)).Nodup) (hdC : (cs.map (·.cid)).Nodup)
    (hc : c ∈ cs) (hroom : alGet s.rooms roomID = some room)
    (hInv : roomsInv cs s)
    (hclear : ∀ p ∈ s.rooms, c.uid ∉ p.2.users) :
    roomsInv cs (joinInto s c roomID room) := by
  obtain ⟨hndR, hnem, hcov⟩ := hInv
  have hkeys : (alSet s.rooms roomID (room.addUser c.uid)).map (·.1) =
      s.rooms.map (·.1) :=
    alSet_keys_of_mem _ _ _ (by rw [hroom]; simp)
  have hget : ∀ d : Client, d.cid ≠ c.cid →
      getRoomID (joinInto s c roomID room) d.cid = getRoomID s d.cid := by
    intro d hd
    show (alGet (alSet s.clientRooms c.cid roomID) d.cid).getD "" =
      (alGet s.clientRooms d.cid).getD ""
    rw [alGet_alSet_ne _ _ _ _ (Ne.symm hd)]
  have hgetc : getRoomID (joinInto s c roomID room) c.cid = roomID := by
    show (alGet (alSet s.clientRooms c.cid roomID) c.cid).getD "" = roomID
    rw [alGet_alSet_self]
    rfl
  refine ⟨?_, ?_, ?_⟩
  · show ((alSet s.rooms roomID (room.addUser c.uid)).map (·.1)).Nodup
    rw [hkeys]
    exact hndR
  · show "" ∉ (alSet s.rooms roomID (room.addUser c.uid)).map (·.1)
    rw [hkeys]
    exact hnem
  · intro p hp u hu
    replace hp : p ∈ alSet s.rooms roomID (room.addUser c.uid) := hp
    rcases mem_alSet_cases hndR hp with heq | ⟨hmem, hpk⟩
    · subst heq
      rcases (Room.mem_addUser room c.uid u).1 hu with hu1 | hue
      · by_cases hcu : u = c.uid
        · exact ⟨c, hc, hcu.symm, hgetc⟩
        · obtain ⟨c', hc', huid, hpt⟩ := hcov (roomID, room) (alGet_mem hroom) u hu1
          have hcc : c' ≠ c := fun he => hcu (by rw [← huid, he])
          have hcid : c'.cid ≠ c.cid := fun he =>
            hcc (List.inj_on_of_nodup_map hdC hc' hc he)
          exact ⟨c', hc', huid, by rw [hget c' hcid]; exact hpt⟩
      · exact ⟨c, hc, hue.symm, hgetc⟩
    · obtain ⟨c', hc', huid, hpt⟩ := hcov p hmem u hu
      have hcu : u ≠ c.uid := fun he => hclear p hmem (he ▸ hu)
      have hcc : c' ≠ c := fun he => hcu (by rw [← huid, he])
      have hcid : c'.cid ≠ c.cid := fun he =>
        hcc (List.inj_on_of_nodup_map hdC hc' hc he)
      exact ⟨c', hc', huid, by rw [hget c' hcid]; exact hpt⟩

theorem handleJoinRoom_roomsInv (cs : List Client) (s : HubState) (c : Client)
    (r : String)
    (hdU : (cs.map (·.uid)).Nodup) (hdC : (cs.map (·.cid)).Nodup)
    (hc : c ∈ cs) (hr : r ≠ "") (hInv : roomsInv cs s) :
    roomsInv cs (handleJoinRoom s c r) := by
  obtain ⟨⟨hndR1, hne1, hcov1⟩, hclear⟩ := leaveCurrent_roomsInv cs s c hdU hc hInv
  unfold handleJoinRoom
  dsimp only
  cases hg : alGet (leaveCurrent s c).rooms r with
  | some room =>
      exact joinInto_roomsInv cs (leaveCurrent s c) c r room hdU hdC hc hg
        ⟨hndR1, hne1, hcov1⟩ hclear
  | none =>
      have hrk : r ∉ ((leaveCurrent s c).rooms).map (·.1) :=
        (alGet_eq_none_iff _ _).1 hg
      have hkeys2 : ({ leaveCurrent s c with
          rooms := alSet (leaveCurrent s c).rooms r ⟨r, r, [], []⟩ } :
            HubState).rooms.map (·.1) =
          ((leaveCurrent s c).rooms).map (·.1) ++ [r] :=
        alSet_keys_of_none _ _ _ hg
      have hInv2 : roomsInv cs { leaveCurrent s c with
          rooms := alSet (leaveCurrent s c).rooms r ⟨r, r, [], []⟩ } := by
        refine ⟨?_, ?_, ?_⟩
        · rw [hkeys2]
          simp [List.nodup_append, hndR1, hrk]
        · rw [hkeys2]
          simp [hne1, Ne.symm hr]
        · intro p hp u hu
          replace hp : p ∈ alSet (leaveCurrent s c).rooms r ⟨r, r, [], []⟩ := hp
          rcases mem_alSet_cases hndR1 hp with heq | ⟨hmem, hpk⟩
          · subst heq
            simp at hu
          · obtain ⟨c', hc', huid, hpt⟩ := hcov1 p hmem u hu
            exact ⟨c', hc', huid, hpt⟩
      have hclear2 : ∀ p ∈ ({ leaveCurrent s c with
          rooms := alSet (leaveCurrent s c).rooms r ⟨r, r, [], []⟩ } :
            HubState).rooms, c.uid ∉ p.2.users := by
        intro p hp
        replace hp : p ∈ alSet (leaveCurrent s c).rooms r ⟨r, r, [], []⟩ := hp
        rcases mem_alSet_cases hndR1 hp with heq | ⟨hmem, hpk⟩
        · subst heq
          simp
        · exact hclear p hmem
      exact joinInto_roomsInv cs _ c r ⟨r, r, [], []⟩ hdU hdC hc
        (by show alGet (alSet (leaveCurrent s c).rooms r ⟨r, r, [], []⟩) r = _
            exact alGet_alSet_self _ _ _)
        hInv2 hclear2

theorem handleLeaveRoom_roomsInv (cs : List Client) (s : HubState) (c : Client)
    (r : String)
    (hdU : (cs.map (·.uid)).Nodup) (hdC : (cs.map (·.cid)).Nodup)
    (hc : c ∈ cs) (hptr : r = getRoomID s c.cid) (hInv : roomsInv cs s) :
    roomsInv cs (handleLeaveRoom s c r) := by
  obtain ⟨hndR, hnem, hcov⟩ := hInv
  unfold handleLeaveRoom
  cases hg : alGet s.rooms r with
  | none => exact ⟨hndR, hnem, hcov⟩
  | some room =>
      have hkeys : (alSet s.rooms r (room.removeUser c.uid)).map (·.1) =
          s.rooms.map (·.1) :=
        alSet_keys_of_mem _ _ _ (by rw [hg]; simp)
      have hget : ∀ d : Client, d.cid ≠ c.cid →
          (alGet (alSet s.clientRooms c.cid "") d.cid).getD "" =
            getRoomID s d.cid := by
        intro d hd
        rw [alGet_alSet_ne _ _ _ _ (Ne.symm hd)]
        rfl
      refine ⟨?_, ?_, ?_⟩
      · show ((alSet s.rooms r (room.removeUser c.uid)).map (·.1)).Nodup
        rw [hkeys]
        exact hndR
      · show "" ∉ (alSet s.rooms r (room.removeUser c.uid)).map (·.1)
        rw [hkeys]
        exact hnem
      · intro p hp u hu
        replace hp : p ∈ alSet s.rooms r (room.removeUser c.uid) := hp
        rcases mem_alSet_cases hndR hp with heq | ⟨hmem, hpk⟩
        · subst heq
          have hu2 : u ∈ room.users ∧ u ≠ c.uid := by
            have := hu
            unfold Room.removeUser at this
            simpa using this
          obtain ⟨c', hc', huid, hpt⟩ := hcov (r, room) (alGet_mem hg) u hu2.1
          have hcc : c' ≠ c := fun he => hu2.2 (by rw [← huid, he])
          have hcid : c'.cid ≠ c.cid := fun he =>
            hcc (List.inj_on_of_nodup_map hdC hc' hc he)
          refine ⟨c', hc', huid, ?_⟩
          show (alGet (alSet s.clientRooms c.cid "") c'.cid).getD "" = _
          rw [hget c' hcid]
          exact hpt
        · obtain ⟨c', hc', huid, hpt⟩ := hcov p hmem u hu
          have hcc : c' ≠ c := by
            intro he
            rw [he] at hpt
            exact hpk (by rw [← hpt, hptr])
          have hcid : c'.cid ≠ c.cid := fun he =>
            hcc (List.inj_on_of_nodup_map hdC hc' hc he)
          refine ⟨c', hc', huid, ?_⟩
          show (alGet (alSet s.clientRooms c.cid "") c'.cid).getD "" = _
          rw [hget c' hcid]
          exact hpt

theorem applyOps_roomsInv (cs : List Client)
    (hdU : (cs.map (·.uid)).Nodup) (hdC : (cs.map (·.cid)).Nodup)
    (ops : List HubOp) :
    ∀ s : HubState, roomsInv cs s → roomOkB cs s ops = true →
      roomsInv cs (applyOps s ops) := by
  induction ops with
  | nil => intro s hInv _; exact hInv
  | cons op rest ih =>
      intro s hInv hok
      unfold roomOkB at hok
      rw [Bool.and_eq_true] at hok
      have hstep : roomsInv cs (applyOp s op) := by
        cases op with
        | register c => exact absurd hok.1 (by simp)
        | unregister c => exact absurd hok.1 (by simp)
        | broadcast m => exact absurd hok.1 (by simp)
        | privmsg uid m => exact absurd hok.1 (by simp)
        | join c r =>
            rw [Bool.and_eq_true, decide_eq_true_iff, decide_eq_true_iff] at hok
            exact handleJoinRoom_roomsInv cs s c r hdU hdC hok.1.1 hok.1.2 hInv
        | leave c r =>
            rw [Bool.and_eq_true, decide_eq_true_iff, decide_eq_true_iff] at hok
            exact handleLeaveRoom_roomsInv cs s c r hdU hdC hok.1.1 hok.1.2 hInv
      exact ih (applyOp s op) hstep hok.2

theorem roomsInv_unique (cs : List Client) (s : HubState)
    (hdU : (cs.map (·.uid)).Nodup) (hInv : roomsInv cs s) :
    ∀ p ∈ s.rooms, ∀ q ∈ s.rooms, ∀ u, u ∈ p.2.users → u ∈ q.2.users → p = q := by
  intro p hp q hq u hup huq
  obtain ⟨c1, hc1, hu1, hp1⟩ := hInv.2.2 p hp u hup
  obtain ⟨c2, hc2, hu2, hp2⟩ := hInv.2.2 q hq u huq
  have hcc : c1 = c2 := List.inj_on_of_nodup_map hdU hc1 hc2 (by rw [hu1, hu2])
  have hkeys : p.1 = q.1 := by rw [← hp1, hcc, hp2]
  exact List.inj_on_of_nodup_map hInv.1 hp hq hkeys

/-- C4 (amended): starting from a well-formed state (duplicate-free room
keys, no empty room id, every member covered by the room pointer of its
client), any sequence of join and leave operations by clients with distinct
user ids and distinct identities keeps every user id in the member set of
at most one room, provided every join names a nonempty room id and every
leave names the room the client room pointer currently holds.  The
correction: a leave naming a room other than the current one clears the
pointer without removing the user from its actual room, after which a join
puts the user id into a second member set, so I1 does not hold for
arbitrary sequences. -/
theorem membership_unique (cs : List Client) (s : HubState) (ops : List HubOp)
    (hdU : (cs.map (·.uid)).Nodup) (hdC : (cs.map (·.cid)).Nodup)
    (hInv : roomsInv cs s) (hok : roomOkB cs s ops = true) :
    ∀ p ∈ (applyOps s ops).rooms, ∀ q ∈ (applyOps s ops).rooms, ∀ u,
      u ∈ p.2.users → u ∈ q.2.users → p = q :=
  roomsInv_unique cs _ hdU (applyOps_roomsInv cs hdU hdC ops s hInv hok)

/-- State used by the C4 counterexample: client X joins room a, then leaves
room general (which exists but is not the room X is in), then joins room b. -/
def dualJoinStateW : HubState :=
  applyOps initialState [.join ⟨1, "x", "X"⟩ "a", .leave ⟨1, "x", "X"⟩ "general",
    .join ⟨1, "x", "X"⟩ "b"]

/-- Counterexample for C4 as stated: after a join and leave sequence the
user id x is in the member sets of the two distinct rooms a and b, because
the leave of room general cleared the room pointer of X without removing x
from room a, and the following join of room b therefore skipped the
leave-current-room step. -/
theorem membership_unique_counterexample :
    "x" ∈ roomUsers dualJoinStateW "a" ∧ "x" ∈ roomUsers dualJoinStateW "b" ∧
      ("a" : String) ≠ "b" := by
  refine ⟨by decide, by decide, by decide⟩

/-- Witness for C4: a well-targeted join, leave, join sequence by a single
client from the initial state. -/
theorem membership_unique_witness :
    roomOkB [⟨1, "x", "X"⟩] initialState [.join ⟨1, "x", "X"⟩ "a",
        .leave ⟨1, "x", "X"⟩ "a", .join ⟨1, "x", "X"⟩ "b"] = true ∧
      (∀ p ∈ (applyOps initialState [.join ⟨1, "x", "X"⟩ "a",
          .leave ⟨1, "x", "X"⟩ "a", .join ⟨1, "x", "X"⟩ "b"]).rooms,
        ∀ q ∈ (applyOps initialState [.join ⟨1, "x", "X"⟩ "a",
          .leave ⟨1, "x", "X"⟩ "a", .join ⟨1, "x", "X"⟩ "b"]).rooms,
        ∀ u, u ∈ p.2.users → u ∈ q.2.users → p = q) :=
  ⟨by decide,
    membership_unique [⟨1, "x", "X"⟩] initialState
      [.join ⟨1, "x", "X"⟩ "a", .leave ⟨1, "x", "X"⟩ "a", .join ⟨1, "x", "X"⟩ "b"]
      (by decide) (by decide) (by decide) (by decide)⟩

end ChatServer
